import Mathlib

/-!
Verification of the agent-execution runtime and search pipeline
(src/claudable/src/ai/agent.py and src/claudable/src/agents/agent_search.py),
as a shallow embedding in Lean 4.

Conventions of the embedding:
- Python dicts used as records become structures; a key that may be absent
  or `None` becomes an `Option` field.
- The remote model backend is an oracle `lm : List Message → List RawDelta`
  giving, for each request history, the normalized sequence of streamed deltas.
- A registered tool is a function `String → Except String String` from the raw
  JSON arguments string to its output, with `Except.error e` modelling a raised
  exception whose text is `e`.  JSON parsing of the arguments string
  (`json.loads`) is a separate oracle `parse : String → Except String Unit`,
  since the source parses before looking the tool up.
- Asynchronous tasks become `Future` records carrying the result computed at
  spawn time plus a scheduler-chosen completion time `ctime`; awaiting a future
  returns its result (waiting if necessary), so the awaited value does not
  depend on `ctime`.
- Fallible code returns `Except String`.
-/

namespace Claudable

/-- Single-quote character, kept out of string literals. -/
def sq : String := "\x27"

/-- In-flight or reconstructed tool call, as buffered by the Step engine
(`tool_call_buffer` entries in `step`): `id`, `function.name`, and the
accumulated `function.arguments` string.  `name` is `Option` because the
normalizer can emit `None` when the stream never carried a name. -/
structure ToolCallRec where
  id : String
  name : Option String
  arguments : String
  deriving DecidableEq, Repr

/-- Conversation message (the dicts appended to `history`). -/
structure Message where
  role : String
  content : Option String
  tool_calls : List ToolCallRec
  tool_call_id : Option String
  deriving DecidableEq, Repr

/-- Result from executing a single tool (dataclass `ToolResult`). -/
structure ToolResult where
  tool_call_id : String
  output : String
  is_error : Bool
  deriving DecidableEq, Repr

/-- ToolResult.message: conversion to a tool-role history message. -/
def ToolResult.message (tr : ToolResult) : Message :=
  { role := "tool", content := some tr.output, tool_calls := [],
    tool_call_id := some tr.tool_call_id }

/-- Result of a whole agent loop run (dataclass `AgentResult`). -/
structure AgentResult where
  history : List Message
  iterations : Nat
  final_response : String
  tool_calls_total : Nat
  deriving DecidableEq, Repr

/-- Tool registry: association list from tool name to the invocable unit. -/
def Registry : Type := List (String × (String → Except String String))

/-- Dictionary lookup `tool_registry.get(name)`. -/
def Registry.lookup (reg : Registry) (name : String) :
    Option (String → Except String String) :=
  (List.find? (fun p => p.1 == name) reg).map Prod.snd

/-- Python `str()` of an optional string (`None` prints as "None"). -/
def pyStr : Option String → String
  | some s => s
  | none => "None"

/-! Delta normalizer `gen` (agent.py lines 451-471). -/

/-- Payload of `delta.tool_calls[0]`: the pair `(id, function.name)` is present
only on the first fragment of a call; `arguments` may be absent. -/
structure ToolCallDelta where
  idName : Option (String × String)
  arguments : Option String
  deriving DecidableEq, Repr

/-- One raw streamed delta (`x.choices[0].delta`): it may carry tool-call
data, text content, or neither (a protocol violation).  When both are present
the source takes the tool-call branch (`if .. elif ..`). -/
structure RawDelta where
  tool_call : Option ToolCallDelta
  content : Option String
  deriving DecidableEq, Repr

/-- Normalized event emitted by `gen`: `AssistantResponse` or `ToolCall`. -/
inductive Chunk where
  | assistantResponse (content : String)
  | toolCall (id : Option String) (name : Option String) (arguments : String)
  deriving DecidableEq, Repr

/-- Recursion of `gen`, carrying the last-seen tool-call id and name.  Returns
the emitted chunks and, if a delta carried neither tool data nor content, the
`ValueError("Unknown delta format")` text (chunks before the error were already
yielded). -/
def genGo (curId curName : Option String) :
    List RawDelta → List Chunk × Option String
  | [] => ([], none)
  | d :: ds =>
    match d.tool_call with
    | some tcd =>
      let newId := match tcd.idName with | some p => some p.1 | none => curId
      let newName := match tcd.idName with | some p => some p.2 | none => curName
      let (cs, e) := genGo newId newName ds
      (Chunk.toolCall newId newName (tcd.arguments.getD "") :: cs, e)
    | none =>
      match d.content with
      | some c =>
        let (cs, e) := genGo curId curName ds
        (Chunk.assistantResponse c :: cs, e)
      | none => ([], some "Unknown delta format")

/-- The delta normalizer `gen`: consumes the streamed deltas of one request and
emits normalized chunks. -/
def gen (ds : List RawDelta) : List Chunk × Option String :=
  genGo none none ds

/-! Tool executor `_execute_tool` (agent.py lines 474-519). -/

/-- Mirrors `_execute_tool`: parse the arguments (empty string parses to `{}`
without calling the parser), look the tool up, invoke it, and convert any
exception into an error `ToolResult`.  A `json.loads` failure raises inside
the same `try`, before the registry lookup. -/
def execute_tool (parse : String → Except String Unit) (reg : Registry)
    (tool_name : Option String) (tool_args_str : String) (tool_id : String) :
    ToolResult :=
  match (if tool_args_str = "" then Except.ok () else parse tool_args_str) with
  | .error e => ⟨tool_id, "Error executing tool: " ++ e, true⟩
  | .ok _ =>
    match tool_name with
    | none => ⟨tool_id, "Error: Tool " ++ sq ++ pyStr tool_name ++ sq ++ " not found", true⟩
    | some n =>
      match reg.lookup n with
      | none => ⟨tool_id, "Error: Tool " ++ sq ++ n ++ sq ++ " not found", true⟩
      | some fn =>
        match fn tool_args_str with
        | .ok out => ⟨tool_id, out, false⟩
        | .error e => ⟨tool_id, "Error executing tool: " ++ e, true⟩

/-! Step engine `step` (agent.py lines 523-643). -/

/-- A spawned asynchronous tool execution (`asyncio.create_task`): the result
is determined at spawn time; `ctime` is the scheduler-assigned completion
time, which never influences the awaited value. -/
structure Future where
  id : String
  ctime : Nat
  result : ToolResult
  deriving DecidableEq, Repr

/-- Lookup in a spawned-futures table (`id in tool_futures` /
`tool_futures[id]`). -/
def findFuture (fs : List Future) (id : String) : Option Future :=
  fs.find? (fun f => f.id == id)

/-- Truthiness of a Python string-or-None value. -/
def truthy : Option String → Bool
  | some s => !(s == "")
  | none => false

/-- Mutable state of one `step` invocation: the accumulating assistant
content, the insertion-ordered `tool_call_buffer`, the `last_tool_id`
sentinel, and the spawned `tool_futures`. -/
structure StepState where
  content : String
  buffer : List ToolCallRec
  last_tool_id : Option String
  futures : List Future
  deriving Repr

/-- Lookup of a buffered tool call by id (`id in tool_call_buffer`). -/
def bufferFind (buf : List ToolCallRec) (c : String) : Option ToolCallRec :=
  buf.find? (fun tc => tc.id == c)

/-- Continuation fragment: append `arguments` to the buffered call `c`. -/
def bufferAppendArgs (buf : List ToolCallRec) (c : String) (args : String) :
    List ToolCallRec :=
  buf.map (fun tc => if tc.id == c then { tc with arguments := tc.arguments ++ args } else tc)

/-- Early execution of the previously open call, triggered when a new id
arrives: `early_tool_execution and execute_tools and last_tool_id and
last_tool_id in tool_call_buffer`. -/
def spawnPrev (parse : String → Except String Unit) (reg : Registry)
    (ctime : String → Nat) (early execTools : Bool) (s : StepState) : StepState :=
  if early && execTools && truthy s.last_tool_id then
    match s.last_tool_id with
    | some l =>
      match bufferFind s.buffer l with
      | some prev =>
        { s with futures := s.futures ++
            [⟨prev.id, ctime prev.id,
              execute_tool parse reg prev.name prev.arguments prev.id⟩] }
      | none => s
    | none => s
  else s

/-- Processing of one normalized chunk inside the streaming loop of `step`. -/
def stepChunk (parse : String → Except String Unit) (reg : Registry)
    (ctime : String → Nat) (early execTools : Bool) (s : StepState) :
    Chunk → StepState
  | .assistantResponse c => { s with content := s.content ++ c }
  | .toolCall id name args =>
    match id with
    | some c =>
      if c ≠ "" ∧ (bufferFind s.buffer c).isNone then
        let s1 := spawnPrev parse reg ctime early execTools s
        { s1 with buffer := s1.buffer ++ [⟨c, name, args⟩],
                  last_tool_id := some c }
      else if (bufferFind s.buffer c).isSome then
        { s with buffer := bufferAppendArgs s.buffer c args }
      else s
    | none => s

/-- Initial step state. -/
def initStepState : StepState := ⟨"", [], none, []⟩

/-- Result of a single LLM step (dataclass `StepResult`). -/
structure StepResultM where
  message : Message
  tool_calls : List ToolCallRec
  registry : Registry
  tool_futures : List Future
  executed : Bool

/-- Post-stream work of `step`: finalize the assistant message (the `content`
key is popped when empty) and spawn execution for every completed call without
an already-spawned handle. -/
def finalizeStep (parse : String → Except String Unit) (reg : Registry)
    (execTools : Bool) (ctime : String → Nat) (s : StepState) : StepResultM :=
  let tool_calls := s.buffer
  let message : Message :=
    { role := "assistant",
      content := if s.content = "" then none else some s.content,
      tool_calls := tool_calls,
      tool_call_id := none }
  let futures :=
    if execTools then
      tool_calls.foldl (fun fs tc =>
        if (findFuture fs tc.id).isSome then fs
        else fs ++ [⟨tc.id, ctime tc.id,
          execute_tool parse reg tc.name tc.arguments tc.id⟩]) s.futures
    else s.futures
  ⟨message, tool_calls, reg, futures, false⟩

/-- One full `step` invocation for a request whose stream normalizes without a
protocol violation; the step engine folds the chunks and finalizes. -/
def runStepOk (parse : String → Except String Unit)
    (lm : List Message → List RawDelta) (reg : Registry)
    (ctime : String → Nat) (early execTools : Bool)
    (history : List Message) : StepResultM :=
  finalizeStep parse reg execTools ctime
    ((gen (lm history)).1.foldl (stepChunk parse reg ctime early execTools) initStepState)

/-- One full `step` invocation: a `MalformedDeltaError` (`ValueError` from
`gen`) propagates out of the step. -/
def runStep (parse : String → Except String Unit)
    (lm : List Message → List RawDelta) (reg : Registry)
    (ctime : String → Nat) (early execTools : Bool)
    (history : List Message) : Except String StepResultM :=
  match (gen (lm history)).2 with
  | some e => .error e
  | none => .ok (runStepOk parse lm reg ctime early execTools history)

/-- Awaiting the already-started futures in original call order
(`StepResult.tool_results`): a call whose execution was never started raises
`KeyError`. -/
def awaitAll (fs : List Future) : List ToolCallRec → Except String (List ToolResult)
  | [] => .ok []
  | tc :: tcs =>
    match findFuture fs tc.id with
    | none => .error ("KeyError: " ++ tc.id)
    | some f =>
      match awaitAll fs tcs with
      | .error e => .error e
      | .ok rs => .ok (f.result :: rs)

/-- StepResult.tool_results: await results of tools that have already been
started, in the original call order; never starts execution. -/
def StepResultM.tool_results (sr : StepResultM) : Except String (List ToolResult) :=
  awaitAll sr.tool_futures sr.tool_calls

/-- StepResult.execute_tools: start executing tools that have not been started
yet (optionally restricted by `only`), set the `_executed` flag, and await all
results.  A second call raises `RuntimeError`.  Returns the updated object
state together with the outcome, since the flag is set even when the final
await fails. -/
def StepResultM.execute_tools (sr : StepResultM)
    (parse : String → Except String Unit) (ctime : String → Nat)
    (only : Option (List String)) :
    StepResultM × Except String (List ToolResult) :=
  if sr.executed then
    (sr, .error "Tools already executed for this StepResult")
  else
    let futures := sr.tool_calls.foldl (fun fs tc =>
      let skip : Bool :=
        match only with
        | some names => !(names.isEmpty) && !(names.contains (pyStr tc.name))
        | none => false
      if skip then fs
      else if (findFuture fs tc.id).isSome then fs
      else
        match tc.name.bind sr.registry.lookup with
        | none => fs ++ [⟨tc.id, ctime tc.id,
            ⟨tc.id, "Tool " ++ sq ++ pyStr tc.name ++ sq ++ " not found", true⟩⟩]
        | some _ => fs ++ [⟨tc.id, ctime tc.id,
            execute_tool parse sr.registry tc.name tc.arguments tc.id⟩])
      sr.tool_futures
    let sr' := { sr with tool_futures := futures, executed := true }
    (sr', sr'.tool_results)

/-! Agent loop `agent` (agent.py lines 645-698). -/

/-- Exit of the agent loop: `final_response = history[-1].get("content", "")`
(an empty input history would raise `IndexError`). -/
def finalizeAgent (history : List Message) (iterations total : Nat) :
    Except String AgentResult :=
  match history.getLast? with
  | none => .error "IndexError: list index out of range"
  | some m => .ok ⟨history, iterations, m.content.getD "", total⟩

/-- The `while iteration < max_iterations` loop of `agent`, with `fuel` the
number of remaining permitted iterations.  Each round runs exactly one step
(with `execute_tools=True`), appends the assistant message, and either breaks
(no tool calls) or awaits all pending tool results in call order and appends
each as a tool message. -/
def agentGo (parse : String → Except String Unit)
    (lm : List Message → List RawDelta) (reg : Registry)
    (ctime : String → Nat) (early : Bool) :
    Nat → List Message → Nat → Nat → Except String AgentResult
  | 0, history, iteration, total => finalizeAgent history iteration total
  | fuel + 1, history, iteration, total =>
    match runStep parse lm reg ctime early true history with
    | .error e => .error e
    | .ok sr =>
      let history1 := history ++ [sr.message]
      if sr.tool_calls = [] then
        finalizeAgent history1 (iteration + 1) total
      else
        match sr.tool_results with
        | .error e => .error e
        | .ok rs =>
          agentGo parse lm reg ctime early fuel
            (history1 ++ rs.map ToolResult.message)
            (iteration + 1) (total + sr.tool_calls.length)

/-- The agent loop `agent`: drives steps until a no-tool-call step or the
iteration cap, returning the final `AgentResult` (the streamed chunks it also
yields are not modelled). -/
def agent (parse : String → Except String Unit)
    (lm : List Message → List RawDelta) (reg : Registry)
    (ctime : String → Nat) (history : List Message)
    (max_iterations : Nat) (early : Bool) : Except String AgentResult :=
  agentGo parse lm reg ctime early max_iterations history 0 0

/-! Fetch pipeline and orchestrator (agent_search.py). -/

/-- A fetched page as the fallback logic observes it: the response `status`
and the markdown text extracted by the converter (`"".join(content)`). -/
structure Page where
  status : Nat
  extracted : String
  deriving DecidableEq, Repr

/-- One fetch-tier attempt: either a page, or the text of the exception the
backend raised (timeouts, connection errors, extraction failures). -/
inductive FetchAttempt where
  | ok (page : Page)
  | exn (msg : String)
  deriving DecidableEq, Repr

/-- Python `str.strip()`: drop leading and trailing whitespace. -/
def pyStrip (s : String) : String :=
  String.mk (((s.data.dropWhile Char.isWhitespace).reverse.dropWhile
    Char.isWhitespace).reverse)

/-- The `text` variable after one method block of `fetch_and_store`: content
is kept only when the status is 200 and the extracted text is non-empty after
stripping (`if text and text.strip()`); otherwise `text` stays/returns to
`None`. -/
def attemptText : FetchAttempt → Option String
  | .exn _ => none
  | .ok p =>
    if p.status = 200 then
      if p.extracted ≠ "" ∧ pyStrip p.extracted ≠ "" then some p.extracted else none
    else none

/-- Row of the `search_results` table. -/
structure CacheRow where
  id : Nat
  link : String
  text : String
  deriving DecidableEq, Repr

/-- Function `save_to_db`: append-only insert with an auto-incrementing id (modelled as
one more than the number of rows of this run), returning the new row id. -/
def save_to_db (cache : List CacheRow) (link text : String) :
    List CacheRow × Nat :=
  let newId := cache.length + 1
  (cache ++ [⟨newId, link, text⟩], newId)

/-- The dict returned by `fetch_and_store` for one URL. -/
structure FetchEntry where
  db_id : Nat
  link : String
  method : String
  deriving DecidableEq, Repr

/-- Terminal failure marker stored when every tier fails. -/
def allFailedMsg : String :=
  "Failed to fetch content: All methods (get, fetch, stealthy_fetch) failed or returned empty content"

/-- Function `fetch_and_store` for one URL, given the outcome each tier WOULD produce
if invoked: tier 1 (`Fetcher.get`), then tier 2 (`DynamicFetcher`) only if
`text` is still falsy, then tier 3 (`StealthyFetcher`) likewise; finally the
text (or the failure marker) is stored.  The third component records which
tiers were actually invoked, in order. -/
def fetch_and_store (cache : List CacheRow) (url : String)
    (t1 t2 t3 : FetchAttempt) : List CacheRow × FetchEntry × List Nat :=
  match attemptText t1 with
  | some text =>
    let (c, i) := save_to_db cache url text
    (c, ⟨i, url, "get"⟩, [1])
  | none =>
    match attemptText t2 with
    | some text =>
      let (c, i) := save_to_db cache url text
      (c, ⟨i, url, "fetch"⟩, [1, 2])
    | none =>
      match attemptText t3 with
      | some text =>
        let (c, i) := save_to_db cache url text
        (c, ⟨i, url, "stealthy_fetch"⟩, [1, 2, 3])
      | none =>
        let (c, i) := save_to_db cache url allFailedMsg
        (c, ⟨i, url, "failed"⟩, [1, 2, 3])

/-- Canned analysis substituted for a URL whose fetch failed. -/
def cannedFailedAnalysis : String := "Failed to fetch content from this URL."

/-- One `{link, analysis}` pair fed to the synthesis stage. -/
structure DocAnalysis where
  link : String
  analysis : String
  deriving DecidableEq, Repr

/-- Semantics of `await agent(...)` as written in `doc_agent` and `final_answer_agent`:
`agent` in src/ai/agent.py is an async generator, so the await raises
`TypeError` before the loop body ever runs. -/
def awaitAgentCall : Except String AgentResult :=
  .error ("TypeError: object async_generator can" ++ sq ++ "t be used in " ++
    sq ++ "await" ++ sq ++ " expression")

/-- Function `doc_agent`: runs the document sub-agent for one cached document and
returns its final response text. -/
def doc_agent (_db_id : Nat) : Except String String :=
  awaitAgentCall.map (fun r => r.final_response)

/-- Function `analyze_document`: skip analysis for failed fetches (canned analysis, no
DocAgent run); otherwise run `doc_agent`, converting an exception into an
"Analysis failed" analysis.  The boolean records whether a DocAgent run was
started for the entry. -/
def analyze_document (docAgentFn : Nat → Except String String)
    (entry : FetchEntry) : DocAnalysis × Bool :=
  if entry.method = "failed" then
    (⟨entry.link, cannedFailedAnalysis⟩, false)
  else
    match docAgentFn entry.db_id with
    | .ok analysis => (⟨entry.link, analysis⟩, true)
    | .error e => (⟨entry.link, "Analysis failed: " ++ e⟩, true)

/-- Function `final_answer_agent`: one zero-tool agent run over the concatenated
analyses; it also awaits `agent(...)`. -/
def final_answer_agent (_doc_analyses : List DocAnalysis) :
    Except String String :=
  awaitAgentCall.map (fun r => r.final_response)

/-- The per-URL fetch stage of `search_agent` over all search results (the
tasks run concurrently; rows are appended to the shared cache, modelled here
in list order). -/
def fetchAll (cache : List CacheRow) :
    List (String × FetchAttempt × FetchAttempt × FetchAttempt) →
    List CacheRow × List FetchEntry
  | [] => (cache, [])
  | (url, t1, t2, t3) :: rest =>
    let (c1, e, _) := fetch_and_store cache url t1 t2 t3
    let (c2, es) := fetchAll c1 rest
    (c2, e :: es)

/-- Function `search_agent`: search (each result given with the three tier outcomes its
URL would produce), fetch and store all results, analyze each entry, and
synthesize.  Exceptions escaping `final_answer_agent` abort the run. -/
def search_agent
    (results : List (String × FetchAttempt × FetchAttempt × FetchAttempt)) :
    Except String String :=
  if results.isEmpty then .ok "No search results found for the query."
  else
    let (cache, entries) := fetchAll [] results
    let doc_analyses := entries.map (fun e => (analyze_document doc_agent e).1)
    let _ := cache
    final_answer_agent doc_analyses

/-! Concrete instances used by counterexamples and witnesses. -/

/-- Trivial JSON-parse oracle (never needed on the example argument strings). -/
def parseEx : String → Except String Unit := fun _ => Except.ok ()

/-- Scheduler assigning completion time 0 to every task. -/
def ctimeEx : String → Nat := fun _ => 0

/-- The single registered tool `t`, returning "B". -/
def regEx : Registry := [("t", fun _ => Except.ok "B")]

/-- Model script: stream the text "A", then one complete tool call `c1` of
tool `t` with empty arguments. -/
def lmEx : List Message → List RawDelta := fun _ =>
  [⟨none, some "A"⟩, ⟨some ⟨some ("c1", "t"), some ""⟩, none⟩]

/-- Initial history: one user message. -/
def historyEx : List Message := [⟨"user", some "q", [], none⟩]

/-- The result of `agent parseEx lmEx regEx ctimeEx historyEx 1 true`: the run
hits `max_iterations = 1` right after appending the tool result, so the
history ends with a tool message and `final_response` is its content "B". -/
def exResult : AgentResult :=
  ⟨[⟨"user", some "q", [], none⟩,
    ⟨"assistant", some "A", [⟨"c1", some "t", ""⟩], none⟩,
    ⟨"tool", some "B", [], some "c1"⟩], 1, "B", 1⟩

/-! Generic list helpers. -/

/-- Appending past a list in which the search failed. -/
theorem find?_append_none {α : Type} (p : α → Bool) (l1 l2 : List α)
    (h : l1.find? p = none) : (l1 ++ l2).find? p = l2.find? p := by
  rw [List.find?_append, h, Option.none_or]

/-- Appending cannot disturb an already-found element. -/
theorem find?_append_some {α : Type} (p : α → Bool) (l1 l2 : List α) (a : α)
    (h : l1.find? p = some a) : (l1 ++ l2).find? p = some a := by
  rw [List.find?_append, h]
  rfl

/-- takeWhile runs past a prefix all of whose elements satisfy the predicate. -/
theorem takeWhile_append_all {α : Type} (p : α → Bool) (l1 l2 : List α)
    (h : ∀ a ∈ l1, p a = true) : (l1 ++ l2).takeWhile p = l1 ++ l2.takeWhile p := by
  induction l1 with
  | nil => simp
  | cons a l ih =>
    have ha : p a = true := h a (by simp)
    simp only [List.cons_append, List.takeWhile_cons, ha, if_true]
    rw [ih (fun b hb => h b (by simp [hb]))]

/-! Claim C5: fallback monotonicity of the fetch pipeline. -/

/-- C5: for every URL whose tier 1 fetch meets the success predicate (status
indicates success and extracted text is non-empty after trimming), tiers 2 and
3 are never invoked for that URL, and the recorded method is tier 1 ("get"). -/
theorem tier1_success_skips_tiers2_3 (cache : List CacheRow) (url : String)
    (p : Page) (t2 t3 : FetchAttempt)
    (hstatus : p.status = 200) (htext : pyStrip p.extracted ≠ "") :
    (fetch_and_store cache url (.ok p) t2 t3).2.2 = [1] ∧
    (fetch_and_store cache url (.ok p) t2 t3).2.1.method = "get" ∧
    (fetch_and_store cache url (.ok p) t2 t3).2.1.link = url := by
  have hne : p.extracted ≠ "" := by
    intro hemp
    exact htext (by rw [hemp]; rfl)
  have h1 : attemptText (.ok p) = some p.extracted := by
    simp [attemptText, hstatus, hne, htext]
  simp [fetch_and_store, h1, save_to_db]

/-- Witness for C5 at a concrete tier-1 success. -/
theorem tier1_success_skips_tiers2_3_witness :
    (Page.mk 200 "hello").status = 200 ∧ pyStrip (Page.mk 200 "hello").extracted ≠ "" ∧
    ((fetch_and_store [] "u" (.ok ⟨200, "hello"⟩) (.exn "x") (.exn "y")).2.2 = [1] ∧
     (fetch_and_store [] "u" (.ok ⟨200, "hello"⟩) (.exn "x") (.exn "y")).2.1.method = "get" ∧
     (fetch_and_store [] "u" (.ok ⟨200, "hello"⟩) (.exn "x") (.exn "y")).2.1.link = "u") :=
  ⟨rfl, by decide,
   tier1_success_skips_tiers2_3 [] "u" ⟨200, "hello"⟩ (.exn "x") (.exn "y") rfl (by decide)⟩

/-! Claim C9: the iteration cap bounds the number of step rounds. -/

/-- Each loop round increments `iteration` by one and consumes one unit of
fuel, so the final iteration count is bounded by `iter + fuel`. -/
theorem agentGo_iterations_le (parse : String → Except String Unit)
    (lm : List Message → List RawDelta) (reg : Registry)
    (ctime : String → Nat) (early : Bool) :
    ∀ (fuel : Nat) (h : List Message) (iter tot : Nat) (r : AgentResult),
      agentGo parse lm reg ctime early fuel h iter tot = .ok r →
      r.iterations ≤ iter + fuel := by
  intro fuel
  induction fuel with
  | zero =>
    intro h iter tot r heq
    unfold agentGo finalizeAgent at heq
    cases hl : h.getLast? with
    | none => rw [hl] at heq; cases heq
    | some m => rw [hl] at heq; cases heq; simp
  | succ fuel ih =>
    intro h iter tot r heq
    unfold agentGo at heq
    cases hs : runStep parse lm reg ctime early true h with
    | error e => rw [hs] at heq; cases heq
    | ok sr =>
      rw [hs] at heq
      simp only at heq
      by_cases htc : sr.tool_calls = []
      · rw [if_pos htc] at heq
        unfold finalizeAgent at heq
        cases hl : (h ++ [sr.message]).getLast? with
        | none => rw [hl] at heq; cases heq
        | some m =>
          rw [hl] at heq
          cases heq
          show iter + 1 ≤ iter + (fuel + 1)
          omega
      · rw [if_neg htc] at heq
        cases hrs : sr.tool_results with
        | error e => rw [hrs] at heq; cases heq
        | ok rs =>
          rw [hrs] at heq
          have := ih _ _ _ _ heq
          omega

/-- C9: an agent loop with `max_iterations = k` executes at most `k` step
rounds (each loop iteration runs exactly one step, and `iterations` counts the
iterations performed), even if every step keeps producing tool calls. -/
theorem agent_iterations_le_max (parse : String → Except String Unit)
    (lm : List Message → List RawDelta) (reg : Registry)
    (ctime : String → Nat) (h0 : List Message) (k : Nat) (early : Bool)
    (r : AgentResult) (hr : agent parse lm reg ctime h0 k early = .ok r) :
    r.iterations ≤ k := by
  have := agentGo_iterations_le parse lm reg ctime early k h0 0 0 r hr
  omega

/-- Witness for C9 at the concrete one-iteration run. -/
theorem agent_iterations_le_max_witness :
    agent parseEx lmEx regEx ctimeEx historyEx 1 true = .ok exResult ∧
    exResult.iterations ≤ 1 :=
  ⟨rfl, agent_iterations_le_max parseEx lmEx regEx ctimeEx historyEx 1 true exResult rfl⟩

/-! Claim C10: StepResult.execute_tools is one-shot. -/

/-- Any completed `execute_tools` call leaves the `_executed` flag set. -/
theorem execute_tools_sets_flag (sr : StepResultM)
    (parse : String → Except String Unit) (ct : String → Nat)
    (only : Option (List String)) :
    (StepResultM.execute_tools sr parse ct only).1.executed = true := by
  unfold StepResultM.execute_tools
  by_cases h : sr.executed
  · rw [if_pos h]; exact h
  · rw [if_neg h]

/-- On an already-executed StepResult, `execute_tools` raises `RuntimeError`
without touching the object. -/
theorem execute_tools_of_executed (sr : StepResultM)
    (parse : String → Except String Unit) (ct : String → Nat)
    (only : Option (List String)) (h : sr.executed = true) :
    StepResultM.execute_tools sr parse ct only =
      (sr, Except.error "Tools already executed for this StepResult") := by
  unfold StepResultM.execute_tools
  rw [if_pos h]

/-- C10: any `execute_tools` call leaves the `_executed` flag set, so a second
call on the same StepResult always raises `RuntimeError` and starts no tool
execution (the object, including its futures table, is returned unchanged). -/
theorem execute_tools_second_call_raises (sr : StepResultM)
    (parse : String → Except String Unit) (ct1 ct2 : String → Nat)
    (only1 only2 : Option (List String)) :
    StepResultM.execute_tools
        (StepResultM.execute_tools sr parse ct1 only1).1 parse ct2 only2 =
      ((StepResultM.execute_tools sr parse ct1 only1).1,
       Except.error "Tools already executed for this StepResult") :=
  execute_tools_of_executed _ parse ct2 only2
    (execute_tools_sets_flag sr parse ct1 only1)

/-! Claim C1: what final_response actually is. -/

/-- The rule the specification states for `finalResponse`: the content of the
most recent assistant message that carries non-empty content, scanning the
history backward.  Stated from the words of the spec, for comparison with the
source behaviour. -/
def backwardScanFinalResponse (h : List Message) : Option String :=
  (h.reverse.find? (fun m => m.role == "assistant" && !(m.content.getD "" == ""))).map
    (fun m => m.content.getD "")

/-- A successful `finalizeAgent` reports the content of the LAST history
entry, whatever its role. -/
theorem finalizeAgent_ok_shape (h : List Message) (i t : Nat) (r : AgentResult)
    (heq : finalizeAgent h i t = .ok r) :
    r.history = h ∧ r.iterations = i ∧ r.tool_calls_total = t ∧
    ∃ m, h.getLast? = some m ∧ r.final_response = m.content.getD "" := by
  unfold finalizeAgent at heq
  cases hl : h.getLast? with
  | none => rw [hl] at heq; cases heq
  | some m =>
    rw [hl] at heq
    cases heq
    exact ⟨rfl, rfl, rfl, m, rfl, rfl⟩

/-- Every successful `agentGo` run exits through `finalizeAgent`. -/
theorem agentGo_exits_via_finalize (parse : String → Except String Unit)
    (lm : List Message → List RawDelta) (reg : Registry)
    (ctime : String → Nat) (early : Bool) :
    ∀ (fuel : Nat) (h : List Message) (iter tot : Nat) (r : AgentResult),
      agentGo parse lm reg ctime early fuel h iter tot = .ok r →
      ∃ h2 i2 t2, finalizeAgent h2 i2 t2 = .ok r := by
  intro fuel
  induction fuel with
  | zero =>
    intro h iter tot r heq
    exact ⟨h, iter, tot, heq⟩
  | succ fuel ih =>
    intro h iter tot r heq
    unfold agentGo at heq
    cases hs : runStep parse lm reg ctime early true h with
    | error e => rw [hs] at heq; cases heq
    | ok sr =>
      rw [hs] at heq
      simp only at heq
      by_cases htc : sr.tool_calls = []
      · rw [if_pos htc] at heq
        exact ⟨_, _, _, heq⟩
      · rw [if_neg htc] at heq
        cases hrs : sr.tool_results with
        | error e => rw [hrs] at heq; cases heq
        | ok rs =>
          rw [hrs] at heq
          exact ih _ _ _ _ heq

/-- C1 as amended: `final_response` is `history[-1].get("content", "")`, the
content of the LAST entry of the final history (empty when that entry carries
no content) — not the backward scan for the last non-empty assistant content. -/
theorem agent_final_response_eq_last_entry_content
    (parse : String → Except String Unit) (lm : List Message → List RawDelta)
    (reg : Registry) (ctime : String → Nat) (h0 : List Message) (k : Nat)
    (early : Bool) (r : AgentResult)
    (hr : agent parse lm reg ctime h0 k early = .ok r) :
    ∃ m, r.history.getLast? = some m ∧ r.final_response = m.content.getD "" := by
  obtain ⟨h2, i2, t2, hfin⟩ :=
    agentGo_exits_via_finalize parse lm reg ctime early k h0 0 0 r hr
  obtain ⟨hh, _, _, m, hl, hresp⟩ := finalizeAgent_ok_shape h2 i2 t2 r hfin
  exact ⟨m, by rw [hh]; exact hl, hresp⟩

/-- Witness for the amended C1 at the concrete one-iteration run. -/
theorem agent_final_response_eq_last_entry_content_witness :
    agent parseEx lmEx regEx ctimeEx historyEx 1 true = .ok exResult ∧
    ∃ m, exResult.history.getLast? = some m ∧
      exResult.final_response = m.content.getD "" :=
  ⟨rfl, agent_final_response_eq_last_entry_content parseEx lmEx regEx ctimeEx
    historyEx 1 true exResult rfl⟩

/-- Counterexample to C1 as stated: in the concrete run the final history ends
with a tool message of content "B", the most recent non-empty assistant
content is "A", and the returned `final_response` is "B", not "A". -/
theorem agent_final_response_not_backward_scan :
    agent parseEx lmEx regEx ctimeEx historyEx 1 true = Except.ok exResult ∧
    exResult.final_response = "B" ∧
    backwardScanFinalResponse exResult.history = some "A" ∧
    some exResult.final_response ≠ backwardScanFinalResponse exResult.history :=
  ⟨rfl, rfl, rfl, by decide⟩

/-! Claim C4: the final round at the iteration cap. -/

/-- Counterexample to C4 as stated: the concrete run terminates by reaching
`max_iterations = 1` while its final (only) step produced one tool call, yet
the result of that call WAS awaited and appended — the final history ends with the
corresponding tool message. -/
theorem final_round_results_not_dropped_cex :
    agent parseEx lmEx regEx ctimeEx historyEx 1 true = Except.ok exResult ∧
    exResult.iterations = 1 ∧
    exResult.tool_calls_total = 1 ∧
    exResult.history.getLast? = some (ToolResult.message ⟨"c1", "B", false⟩) := by
  refine ⟨rfl, rfl, rfl, ?_⟩
  decide

/-- A loop round whose step produced tool calls always awaits those results
and continues with the history extended by the assistant message and the tool
messages, in that order. -/
theorem agentGo_succ_toolcalls
    (parse : String → Except String Unit) (lm : List Message → List RawDelta)
    (reg : Registry) (ctime : String → Nat) (early : Bool)
    (h : List Message) (fuel iter tot : Nat) (rs : List ToolResult)
    (hgen : (gen (lm h)).2 = none)
    (htc : (runStepOk parse lm reg ctime early true h).tool_calls ≠ [])
    (hrs : (runStepOk parse lm reg ctime early true h).tool_results = .ok rs) :
    agentGo parse lm reg ctime early (fuel + 1) h iter tot =
      agentGo parse lm reg ctime early fuel
        ((h ++ [(runStepOk parse lm reg ctime early true h).message]) ++
          rs.map ToolResult.message)
        (iter + 1)
        (tot + (runStepOk parse lm reg ctime early true h).tool_calls.length) := by
  have hstep : runStep parse lm reg ctime early true h =
      .ok (runStepOk parse lm reg ctime early true h) := by
    unfold runStep
    rw [hgen]
  conv_lhs => rw [agentGo]
  rw [hstep]
  simp only [if_neg htc, hrs]

/-- C4 as amended: on the last permitted iteration (`fuel = 1`, reached by any
run that exhausts its cap) a step that produced tool calls still has its
results awaited (`tool_results`) and appended to the history as tool messages
before the loop returns. -/
theorem final_round_tool_results_awaited_and_appended
    (parse : String → Except String Unit) (lm : List Message → List RawDelta)
    (reg : Registry) (ctime : String → Nat) (early : Bool)
    (h : List Message) (iter tot : Nat) (rs : List ToolResult)
    (hgen : (gen (lm h)).2 = none)
    (htc : (runStepOk parse lm reg ctime early true h).tool_calls ≠ [])
    (hrs : (runStepOk parse lm reg ctime early true h).tool_results = .ok rs) :
    agentGo parse lm reg ctime early 1 h iter tot =
      finalizeAgent
        ((h ++ [(runStepOk parse lm reg ctime early true h).message]) ++
          rs.map ToolResult.message)
        (iter + 1)
        (tot + (runStepOk parse lm reg ctime early true h).tool_calls.length) := by
  have hstep : runStep parse lm reg ctime early true h =
      .ok (runStepOk parse lm reg ctime early true h) := by
    unfold runStep
    rw [hgen]
  unfold agentGo
  rw [hstep]
  simp only [if_neg htc, hrs]
  rfl

/-- Witness for the amended C4 at the concrete run. -/
theorem final_round_tool_results_awaited_and_appended_witness :
    (gen (lmEx historyEx)).2 = none ∧
    (runStepOk parseEx lmEx regEx ctimeEx true true historyEx).tool_calls ≠ [] ∧
    (runStepOk parseEx lmEx regEx ctimeEx true true historyEx).tool_results =
      .ok [⟨"c1", "B", false⟩] ∧
    agentGo parseEx lmEx regEx ctimeEx true 1 historyEx 0 0 =
      finalizeAgent
        ((historyEx ++ [(runStepOk parseEx lmEx regEx ctimeEx true true historyEx).message]) ++
          ([⟨"c1", "B", false⟩] : List ToolResult).map ToolResult.message)
        (0 + 1)
        (0 + (runStepOk parseEx lmEx regEx ctimeEx true true historyEx).tool_calls.length) :=
  ⟨rfl, by decide, rfl,
   final_round_tool_results_awaited_and_appended parseEx lmEx regEx ctimeEx true
     historyEx 0 0 [⟨"c1", "B", false⟩] rfl (by decide) rfl⟩

/-! Claim C2: tool results are yielded in call order. -/

/-- Awaiting already-started futures resolves position `n` of the output to
the recorded result of the future spawned for the `n`-th call. -/
theorem awaitAll_position (fs : List Future) :
    ∀ (tcs : List ToolCallRec) (rs : List ToolResult),
      awaitAll fs tcs = .ok rs →
      ∀ (n : Nat) (tc : ToolCallRec), tcs[n]? = some tc →
        ∃ f, findFuture fs tc.id = some f ∧ rs[n]? = some f.result := by
  intro tcs
  induction tcs with
  | nil =>
    intro rs h n tc hn
    simp at hn
  | cons tc0 tcs ih =>
    intro rs h n tc hn
    unfold awaitAll at h
    cases hf : findFuture fs tc0.id with
    | none => rw [hf] at h; cases h
    | some f0 =>
      rw [hf] at h
      cases hrec : awaitAll fs tcs with
      | error e => rw [hrec] at h; cases h
      | ok rs0 =>
        rw [hrec] at h
        cases h
        cases n with
        | zero =>
          simp only [List.getElem?_cons_zero, Option.some_inj] at hn
          subst hn
          exact ⟨f0, hf, by simp⟩
        | succ n =>
          simp only [List.getElem?_cons_succ] at hn
          obtain ⟨f, hff, hr⟩ := ih rs0 hrec n tc hn
          exact ⟨f, hff, by simpa using hr⟩

/-- C2: within one step, for calls A issued before B (positions i < j), the
awaited results list yields the result of A at position i and that of B at
position j, even when the execution of B completes before that of A
(`fB.ctime < fA.ctime`): the
completion times never influence the awaited values or their order. -/
theorem tool_results_preserve_call_order (sr : StepResultM) (i j : Nat)
    (A B : ToolCallRec) (fA fB : Future) (rs : List ToolResult)
    (hi : sr.tool_calls[i]? = some A) (hj : sr.tool_calls[j]? = some B)
    (hij : i < j)
    (hfA : findFuture sr.tool_futures A.id = some fA)
    (hfB : findFuture sr.tool_futures B.id = some fB)
    (horder : fB.ctime < fA.ctime)
    (hrs : sr.tool_results = .ok rs) :
    rs[i]? = some fA.result ∧ rs[j]? = some fB.result := by
  obtain ⟨fA2, hfA2, hri⟩ := awaitAll_position sr.tool_futures sr.tool_calls rs hrs i A hi
  obtain ⟨fB2, hfB2, hrj⟩ := awaitAll_position sr.tool_futures sr.tool_calls rs hrs j B hj
  rw [hfA] at hfA2
  rw [hfB] at hfB2
  cases hfA2
  cases hfB2
  exact ⟨hri, hrj⟩

/-- Concrete StepResult for the C2 witness: calls a then b, where the future
of b completes (ctime 0) before that of a (ctime 5). -/
def srC2 : StepResultM :=
  { message := ⟨"assistant", none, [], none⟩,
    tool_calls := [⟨"a", some "f", ""⟩, ⟨"b", some "g", ""⟩],
    registry := [],
    tool_futures := [⟨"a", 5, ⟨"a", "ra", false⟩⟩, ⟨"b", 0, ⟨"b", "rb", false⟩⟩],
    executed := false }

/-- Witness for C2: b completes before a, yet the results come back as
[result a, result b]. -/
theorem tool_results_preserve_call_order_witness :
    srC2.tool_calls[0]? = some ⟨"a", some "f", ""⟩ ∧
    srC2.tool_calls[1]? = some ⟨"b", some "g", ""⟩ ∧
    (0 : Nat) < 1 ∧
    findFuture srC2.tool_futures "a" = some ⟨"a", 5, ⟨"a", "ra", false⟩⟩ ∧
    findFuture srC2.tool_futures "b" = some ⟨"b", 0, ⟨"b", "rb", false⟩⟩ ∧
    (0 : Nat) < 5 ∧
    srC2.tool_results = .ok [⟨"a", "ra", false⟩, ⟨"b", "rb", false⟩] ∧
    (([⟨"a", "ra", false⟩, ⟨"b", "rb", false⟩] : List ToolResult)[0]? =
        some (⟨"a", "ra", false⟩ : ToolResult) ∧
     ([⟨"a", "ra", false⟩, ⟨"b", "rb", false⟩] : List ToolResult)[1]? =
        some (⟨"b", "rb", false⟩ : ToolResult)) :=
  ⟨rfl, rfl, by decide, rfl, rfl, by decide, rfl,
   tool_results_preserve_call_order srC2 0 1 ⟨"a", some "f", ""⟩ ⟨"b", some "g", ""⟩
     ⟨"a", 5, ⟨"a", "ra", false⟩⟩ ⟨"b", 0, ⟨"b", "rb", false⟩⟩
     [⟨"a", "ra", false⟩, ⟨"b", "rb", false⟩]
     rfl rfl (by decide) rfl rfl (by decide) rfl⟩

/-! Claim C3: tool-call argument reconstruction. -/

/-- The argument fragments carried by the normalized chunks for call id `c`,
in arrival order, each with the name it carried. -/
def fragsFor (chunks : List Chunk) (c : String) : List (Option String × String) :=
  chunks.filterMap (fun ch =>
    match ch with
    | .toolCall (some i) name args => if i = c then some (name, args) else none
    | _ => none)

/-- Concatenation of a list of strings in order. -/
def strConcat : List String → String
  | [] => ""
  | s :: ss => s ++ strConcat ss

/-- Effect of a sequence of fragments for id `c` on the buffer entry of `c`:
the first fragment opens the entry, later ones append their arguments. -/
def applyFrags (c : String) :
    Option ToolCallRec → List (Option String × String) → Option ToolCallRec
  | cur, [] => cur
  | none, (n, a) :: fs => applyFrags c (some ⟨c, n, a⟩) fs
  | some tc, (_, a) :: fs =>
    applyFrags c (some { tc with arguments := tc.arguments ++ a }) fs

/-- Early execution only spawns futures; it never touches the buffer. -/
theorem spawnPrev_buffer (parse : String → Except String Unit) (reg : Registry)
    (ctime : String → Nat) (early execT : Bool) (s : StepState) :
    (spawnPrev parse reg ctime early execT s).buffer = s.buffer := by
  unfold spawnPrev
  split
  · cases s.last_tool_id with
    | none => rfl
    | some l =>
      simp only
      cases bufferFind s.buffer l with
      | none => rfl
      | some prev => rfl
  · rfl

/-- Buffer lookup across an appended single entry. -/
theorem bufferFind_append (buf : List ToolCallRec) (x : ToolCallRec) (c : String) :
    bufferFind (buf ++ [x]) c =
      (bufferFind buf c).or (if x.id == c then some x else none) := by
  unfold bufferFind
  rw [List.find?_append]
  congr 1
  by_cases hx : x.id == c <;> simp [List.find?, hx]

/-- Buffer lookup after appending arguments to call `d`: the looked-up entry
is updated exactly when it is the entry of `d`. -/
theorem bufferFind_appendArgs (buf : List ToolCallRec) (d : String) (a : String)
    (c : String) :
    bufferFind (bufferAppendArgs buf d a) c =
      (bufferFind buf c).map
        (fun tc => if tc.id == d then { tc with arguments := tc.arguments ++ a } else tc) := by
  unfold bufferFind bufferAppendArgs
  have hpf : ((fun tc : ToolCallRec => tc.id == c) ∘
      (fun tc => if tc.id == d then { tc with arguments := tc.arguments ++ a } else tc)) =
      (fun tc : ToolCallRec => tc.id == c) := by
    funext tc
    by_cases h : tc.id = d <;> simp [h]
  rw [List.find?_map, hpf]

/-- The entry found for id `c` carries id `c`. -/
theorem bufferFind_some_id (buf : List ToolCallRec) (c : String)
    (tc : ToolCallRec) (h : bufferFind buf c = some tc) : tc.id = c := by
  unfold bufferFind at h
  have := List.find?_some h
  simpa using this

/-- Folding the chunk handler over any chunk list transforms the buffer entry
of any non-empty id `c` exactly by the fragments carrying id `c`, in arrival
order. -/
theorem stepFold_buffer (parse : String → Except String Unit) (reg : Registry)
    (ctime : String → Nat) (early execT : Bool) :
    ∀ (chunks : List Chunk) (s : StepState) (c : String), c ≠ "" →
      bufferFind ((chunks.foldl (stepChunk parse reg ctime early execT) s).buffer) c =
        applyFrags c (bufferFind s.buffer c) (fragsFor chunks c) := by
  intro chunks
  induction chunks with
  | nil =>
    intro s c _
    simp [fragsFor, applyFrags]
  | cons ch rest ih =>
    intro s c hc
    rw [List.foldl_cons]
    cases ch with
    | assistantResponse t =>
      rw [ih _ c hc]
      simp [fragsFor, stepChunk]
    | toolCall idOpt name args =>
      cases idOpt with
      | none =>
        rw [ih _ c hc]
        simp [fragsFor, stepChunk]
      | some i =>
        by_cases hieq : i = c
        · subst hieq
          have hfr : fragsFor (Chunk.toolCall (some i) name args :: rest) i =
              (name, args) :: fragsFor rest i := by
            simp [fragsFor]
          rw [hfr]
          by_cases hnone : (bufferFind s.buffer i).isNone
          · have hcond : i ≠ "" ∧ (bufferFind s.buffer i).isNone := ⟨hc, hnone⟩
            have hbn : bufferFind s.buffer i = none := by
              cases hb : bufferFind s.buffer i with
              | none => rfl
              | some tc => rw [hb] at hnone; simp at hnone
            simp only [stepChunk, if_pos hcond]
            rw [ih _ i hc]
            rw [bufferFind_append, spawnPrev_buffer, hbn]
            simp [applyFrags]
          · have hsome : (bufferFind s.buffer i).isSome := by
              cases hb : bufferFind s.buffer i with
              | none => rw [hb] at hnone; simp at hnone
              | some tc => simp
            have hcond : ¬(i ≠ "" ∧ (bufferFind s.buffer i).isNone) := by
              intro hcontra
              exact hnone hcontra.2
            simp only [stepChunk, if_neg hcond, if_pos hsome]
            rw [ih _ i hc]
            rw [bufferFind_appendArgs]
            cases hb : bufferFind s.buffer i with
            | none => rw [hb] at hsome; simp at hsome
            | some tc =>
              have hid : tc.id = i := bufferFind_some_id _ _ _ hb
              simp [applyFrags, hid]
        · have hfr : fragsFor (Chunk.toolCall (some i) name args :: rest) c =
              fragsFor rest c := by
            simp [fragsFor, hieq]
          rw [hfr]
          have hine : (i == c) = false := by
            simp [hieq]
          by_cases hcond : i ≠ "" ∧ (bufferFind s.buffer i).isNone
          · simp only [stepChunk, if_pos hcond]
            rw [ih _ c hc]
            rw [bufferFind_append, spawnPrev_buffer]
            simp [hine]
          · by_cases hsome : (bufferFind s.buffer i).isSome
            · simp only [stepChunk, if_neg hcond, if_pos hsome]
              rw [ih _ c hc]
              rw [bufferFind_appendArgs]
              cases hb : bufferFind s.buffer c with
              | none => simp
              | some tc =>
                have hidc : tc.id = c := bufferFind_some_id _ _ _ hb
                have hidne : tc.id ≠ i := by
                  rw [hidc]
                  exact fun hh => hieq hh.symm
                simp [hidne]
            · simp only [stepChunk, if_neg hcond, if_neg hsome]
              exact ih _ c hc

/-- Closed form of `applyFrags` from an open entry: all later fragment
arguments are appended in order. -/
theorem applyFrags_some (c : String) :
    ∀ (fs : List (Option String × String)) (tc : ToolCallRec),
      applyFrags c (some tc) fs =
        some { tc with arguments := tc.arguments ++ strConcat (fs.map Prod.snd) } := by
  intro fs
  induction fs with
  | nil =>
    intro tc
    simp [applyFrags, strConcat, String.append_empty]
  | cons f fs ih =>
    intro tc
    obtain ⟨n, a⟩ := f
    show applyFrags c (some { tc with arguments := tc.arguments ++ a }) fs = _
    rw [ih]
    simp [strConcat, String.append_assoc]

/-- Closed form of `applyFrags` from no entry: the first fragment opens the
entry with its name, and the arguments are the concatenation of all fragment
arguments in order. -/
theorem applyFrags_none (c : String) (fs : List (Option String × String)) :
    applyFrags c none fs =
      (match fs with
       | [] => none
       | (n, a) :: rest => some ⟨c, n, a ++ strConcat (rest.map Prod.snd)⟩) := by
  cases fs with
  | nil => rfl
  | cons f rest =>
    obtain ⟨n, a⟩ := f
    show applyFrags c (some ⟨c, n, a⟩) rest = _
    rw [applyFrags_some]

/-- C3: for every streamed sequence of argument fragments sharing one call id
`c`, the arguments string recorded for that call in the StepResult equals the
concatenation of the fragments in arrival order, regardless of fragment count
or boundaries (and the recorded name is the one carried at the first
fragment); a call that never appeared is absent. -/
theorem toolcall_arguments_concat_in_arrival_order
    (parse : String → Except String Unit) (lm : List Message → List RawDelta)
    (reg : Registry) (ctime : String → Nat) (early execT : Bool)
    (h : List Message) (c : String) (hc : c ≠ "") :
    bufferFind (runStepOk parse lm reg ctime early execT h).tool_calls c =
      (match fragsFor (gen (lm h)).1 c with
       | [] => none
       | (n, a) :: fs => some ⟨c, n, a ++ strConcat (fs.map Prod.snd)⟩) := by
  show bufferFind
      ((gen (lm h)).1.foldl (stepChunk parse reg ctime early execT) initStepState).buffer c = _
  rw [stepFold_buffer parse reg ctime early execT (gen (lm h)).1 initStepState c hc]
  show applyFrags c none (fragsFor (gen (lm h)).1 c) = _
  rw [applyFrags_none]

/-- Model script for the C3 witness: call `c1` streams its arguments in two
fragments "ab" and "cd", with a text delta in between; the second fragment
carries no id and is associated through the last-seen id. -/
def lmFrag : List Message → List RawDelta := fun _ =>
  [⟨some ⟨some ("c1", "t"), some "ab"⟩, none⟩,
   ⟨none, some "hi"⟩,
   ⟨some ⟨none, some "cd"⟩, none⟩]

/-- Witness for C3: the two fragments "ab" and "cd" reassemble to "abcd". -/
theorem toolcall_arguments_concat_witness :
    ("c1" : String) ≠ "" ∧
    bufferFind (runStepOk parseEx lmFrag regEx ctimeEx true true historyEx).tool_calls "c1" =
      (match fragsFor (gen (lmFrag historyEx)).1 "c1" with
       | [] => none
       | (n, a) :: fs => some ⟨"c1", n, a ++ strConcat (fs.map Prod.snd)⟩) ∧
    bufferFind (runStepOk parseEx lmFrag regEx ctimeEx true true historyEx).tool_calls "c1" =
      some ⟨"c1", some "t", "abcd"⟩ :=
  ⟨by decide,
   toolcall_arguments_concat_in_arrival_order parseEx lmFrag regEx ctimeEx true true
     historyEx "c1" (by decide),
   by decide⟩

/-! Claim C7: tool-error isolation. -/

/-- C7: a tool whose underlying function raises yields a ToolResult with
`is_error = true` carrying the exception text as its output, and a loop round
with tool calls always proceeds to the next iteration (continuing with the
extended history) rather than terminating abnormally. -/
theorem tool_exception_isolated
    (parse : String → Except String Unit) (reg : Registry) (name : String)
    (fn : String → Except String String) (args id e : String)
    (hargs : (if args = "" then Except.ok () else parse args) = Except.ok ())
    (hlook : Registry.lookup reg name = some fn)
    (hfail : fn args = Except.error e) :
    execute_tool parse reg (some name) args id =
      ⟨id, "Error executing tool: " ++ e, true⟩ ∧
    ∀ (lm : List Message → List RawDelta) (ctime : String → Nat) (early : Bool)
      (h : List Message) (fuel iter tot : Nat) (rs : List ToolResult),
      (gen (lm h)).2 = none →
      (runStepOk parse lm reg ctime early true h).tool_calls ≠ [] →
      (runStepOk parse lm reg ctime early true h).tool_results = .ok rs →
      agentGo parse lm reg ctime early (fuel + 1) h iter tot =
        agentGo parse lm reg ctime early fuel
          ((h ++ [(runStepOk parse lm reg ctime early true h).message]) ++
            rs.map ToolResult.message)
          (iter + 1)
          (tot + (runStepOk parse lm reg ctime early true h).tool_calls.length) := by
  constructor
  · unfold execute_tool
    rw [hargs]
    simp only
    rw [hlook]
    simp only
    rw [hfail]
  · intro lm ctime early h fuel iter tot rs hgen htc hrs
    exact agentGo_succ_toolcalls parse lm reg ctime early h fuel iter tot rs hgen htc hrs

/-- Raising tool for the C7 witness. -/
def boomFn : String → Except String String := fun _ => Except.error "boom"

/-- Registry with a raising tool, for the C7 witness. -/
def regBoom : Registry := [("tburst", boomFn)]

/-- Witness for C7 with a concrete raising tool. -/
theorem tool_exception_isolated_witness :
    (if ("" : String) = "" then Except.ok () else parseEx "") = Except.ok () ∧
    Registry.lookup regBoom "tburst" = some boomFn ∧
    boomFn "" = Except.error "boom" ∧
    execute_tool parseEx regBoom (some "tburst") "" "c9" =
      ⟨"c9", "Error executing tool: " ++ "boom", true⟩ :=
  ⟨rfl, rfl, rfl,
   (tool_exception_isolated parseEx regBoom "tburst" boomFn "" "c9" "boom"
     rfl rfl rfl).1⟩

/-! Claim C6: fallback exhaustion and the orchestrator. -/

/-- Search outcome for the C6 scenario: `u1` fails all three tiers, `u2`
succeeds on tier 1. -/
def exSearchInput : List (String × FetchAttempt × FetchAttempt × FetchAttempt) :=
  [("u1", .exn "a", .exn "b", .exn "c"), ("u2", .ok ⟨200, "text"⟩, .exn "b", .exn "c")]

/-- C6, at the failing input: when every tier fails for `u1`, the cache stores
the terminal failure marker under `u1`, the outcome records `method = failed`,
and no DocAgent runs for it (the canned analysis is substituted); but the
orchestrator does NOT return a non-error answer — `search_agent` awaits
`agent(...)` although `agent` in src/ai/agent.py is an async generator, so the
synthesis stage raises `TypeError` on every run with results. -/
theorem all_tiers_failed_marker_and_canned_analysis :
    (fetch_and_store [] "u1" (.exn "a") (.exn "b") (.exn "c")).2.1.method = "failed" ∧
    (fetch_and_store [] "u1" (.exn "a") (.exn "b") (.exn "c")).2.2 = [1, 2, 3] ∧
    (fetch_and_store [] "u1" (.exn "a") (.exn "b") (.exn "c")).1 =
      [⟨1, "u1", allFailedMsg⟩] ∧
    analyze_document doc_agent ⟨1, "u1", "failed"⟩ =
      (⟨"u1", cannedFailedAnalysis⟩, false) ∧
    (fetchAll [] exSearchInput).1 = [⟨1, "u1", allFailedMsg⟩, ⟨2, "u2", "text"⟩] ∧
    (fetchAll [] exSearchInput).2 =
      [⟨1, "u1", "failed"⟩, ⟨2, "u2", "get"⟩] ∧
    search_agent exSearchInput =
      .error ("TypeError: object async_generator can" ++ sq ++ "t be used in " ++
        sq ++ "await" ++ sq ++ " expression") :=
  ⟨rfl, rfl, by decide, by decide, by decide, by decide, rfl⟩

/-! Claim C8: the history invariant.  First, every spawned future records the
result under the id of its own call. -/

/-- A futures table is well formed when every future records a result tagged
with the id of the call it was spawned for. -/
def FuturesWF (fs : List Future) : Prop :=
  ∀ f ∈ fs, f.result.tool_call_id = f.id

/-- The executor `_execute_tool` always tags its result with the given call id. -/
theorem execute_tool_id (parse : String → Except String Unit) (reg : Registry)
    (n : Option String) (a i : String) :
    (execute_tool parse reg n a i).tool_call_id = i := by
  unfold execute_tool
  repeat' split <;> try rfl

/-- Well-formedness is preserved by spawning one well-formed future. -/
theorem futuresWF_append (fs : List Future) (f : Future)
    (h : FuturesWF fs) (hf : f.result.tool_call_id = f.id) :
    FuturesWF (fs ++ [f]) := by
  intro g hg
  rcases List.mem_append.mp hg with hg1 | hg2
  · exact h g hg1
  · rw [List.mem_singleton.mp hg2]
    exact hf

/-- Early execution spawns only well-formed futures. -/
theorem spawnPrev_futuresWF (parse : String → Except String Unit) (reg : Registry)
    (ctime : String → Nat) (early execT : Bool) (s : StepState)
    (h : FuturesWF s.futures) :
    FuturesWF (spawnPrev parse reg ctime early execT s).futures := by
  unfold spawnPrev
  split
  · cases s.last_tool_id with
    | none => exact h
    | some l =>
      simp only
      cases bufferFind s.buffer l with
      | none => exact h
      | some prev =>
        exact futuresWF_append _ _ h (execute_tool_id parse reg prev.name prev.arguments prev.id)
  · exact h

/-- Every chunk handler step preserves futures well-formedness. -/
theorem stepChunk_futuresWF (parse : String → Except String Unit) (reg : Registry)
    (ctime : String → Nat) (early execT : Bool) (s : StepState) (ch : Chunk)
    (h : FuturesWF s.futures) :
    FuturesWF (stepChunk parse reg ctime early execT s ch).futures := by
  cases ch with
  | assistantResponse t => exact h
  | toolCall idOpt name args =>
    cases idOpt with
    | none => exact h
    | some c =>
      by_cases hcond : c ≠ "" ∧ (bufferFind s.buffer c).isNone
      · simp only [stepChunk, if_pos hcond]
        exact spawnPrev_futuresWF parse reg ctime early execT s h
      · by_cases hsome : (bufferFind s.buffer c).isSome
        · simp only [stepChunk, if_neg hcond, if_pos hsome]
          exact h
        · simp only [stepChunk, if_neg hcond, if_neg hsome]
          exact h

/-- The chunk fold preserves futures well-formedness. -/
theorem stepFold_futuresWF (parse : String → Except String Unit) (reg : Registry)
    (ctime : String → Nat) (early execT : Bool) :
    ∀ (chunks : List Chunk) (s : StepState), FuturesWF s.futures →
      FuturesWF ((chunks.foldl (stepChunk parse reg ctime early execT) s).futures) := by
  intro chunks
  induction chunks with
  | nil => intro s h; exact h
  | cons ch rest ih =>
    intro s h
    rw [List.foldl_cons]
    exact ih _ (stepChunk_futuresWF parse reg ctime early execT s ch h)

/-- The post-stream spawning fold of `finalizeStep` preserves well-formedness. -/
theorem finalizeStep_spawn_futuresWF (parse : String → Except String Unit)
    (reg : Registry) (ctime : String → Nat) :
    ∀ (tcs : List ToolCallRec) (fs : List Future), FuturesWF fs →
      FuturesWF (tcs.foldl (fun fs tc =>
        if (findFuture fs tc.id).isSome then fs
        else fs ++ [⟨tc.id, ctime tc.id,
          execute_tool parse reg tc.name tc.arguments tc.id⟩]) fs) := by
  intro tcs
  induction tcs with
  | nil => intro fs h; exact h
  | cons tc tcs ih =>
    intro fs h
    rw [List.foldl_cons]
    by_cases hmem : (findFuture fs tc.id).isSome
    · rw [if_pos hmem]
      exact ih fs h
    · rw [if_neg hmem]
      exact ih _ (futuresWF_append _ _ h (execute_tool_id parse reg tc.name tc.arguments tc.id))

/-- The futures table of a finished step is well formed. -/
theorem runStepOk_futuresWF (parse : String → Except String Unit)
    (lm : List Message → List RawDelta) (reg : Registry) (ctime : String → Nat)
    (early : Bool) (h : List Message) :
    FuturesWF (runStepOk parse lm reg ctime early true h).tool_futures := by
  have hfold : FuturesWF
      (((gen (lm h)).1.foldl (stepChunk parse reg ctime early true) initStepState).futures) :=
    stepFold_futuresWF parse reg ctime early true (gen (lm h)).1 initStepState
      (by intro f hf; cases hf)
  show FuturesWF (finalizeStep parse reg true ctime _).tool_futures
  unfold finalizeStep
  simp only
  exact finalizeStep_spawn_futuresWF parse reg ctime _ _ hfold

/-- Appending an element that is absent preserves distinctness. -/
theorem nodup_append_singleton {α : Type} (l : List α) (a : α)
    (h : l.Nodup) (ha : a ∉ l) : (l ++ [a]).Nodup := by
  rw [List.nodup_append]
  refine ⟨h, List.nodup_singleton a, ?_⟩
  intro x hx hx2
  rw [List.mem_singleton.mp hx2] at hx
  exact ha hx

/-- Appending argument fragments never changes the sequence of buffered ids. -/
theorem bufferAppendArgs_ids (buf : List ToolCallRec) (d a : String) :
    (bufferAppendArgs buf d a).map ToolCallRec.id = buf.map ToolCallRec.id := by
  unfold bufferAppendArgs
  rw [List.map_map]
  apply List.map_congr_left
  intro tc _
  by_cases h : tc.id = d <;> simp [h]

/-- Every chunk handler step keeps the buffered ids distinct. -/
theorem stepChunk_buffer_nodup (parse : String → Except String Unit) (reg : Registry)
    (ctime : String → Nat) (early execT : Bool) (s : StepState) (ch : Chunk)
    (h : (s.buffer.map ToolCallRec.id).Nodup) :
    (((stepChunk parse reg ctime early execT s ch).buffer).map ToolCallRec.id).Nodup := by
  cases ch with
  | assistantResponse t => exact h
  | toolCall idOpt name args =>
    cases idOpt with
    | none => exact h
    | some c =>
      by_cases hcond : c ≠ "" ∧ (bufferFind s.buffer c).isNone
      · simp only [stepChunk, if_pos hcond]
        rw [spawnPrev_buffer, List.map_append]
        refine nodup_append_singleton _ _ h ?_
        intro hmem
        obtain ⟨tc, htc, hid⟩ := List.mem_map.mp hmem
        have hbn : bufferFind s.buffer c = none := by
          cases hb : bufferFind s.buffer c with
          | none => rfl
          | some tc2 => rw [hb] at hcond; simp at hcond
        have := List.find?_eq_none.mp hbn tc htc
        exact this (by simp [hid])
      · by_cases hsome : (bufferFind s.buffer c).isSome
        · simp only [stepChunk, if_neg hcond, if_pos hsome]
          rw [bufferAppendArgs_ids]
          exact h
        · simp only [stepChunk, if_neg hcond, if_neg hsome]
          exact h

/-- The chunk fold keeps the buffered ids distinct. -/
theorem stepFold_buffer_nodup (parse : String → Except String Unit) (reg : Registry)
    (ctime : String → Nat) (early execT : Bool) :
    ∀ (chunks : List Chunk) (s : StepState), (s.buffer.map ToolCallRec.id).Nodup →
      ((((chunks.foldl (stepChunk parse reg ctime early execT) s)).buffer).map
        ToolCallRec.id).Nodup := by
  intro chunks
  induction chunks with
  | nil => intro s h; exact h
  | cons ch rest ih =>
    intro s h
    rw [List.foldl_cons]
    exact ih _ (stepChunk_buffer_nodup parse reg ctime early execT s ch h)

/-- The tool calls of a finished step carry pairwise distinct ids (the buffer
is a dict keyed by id). -/
theorem runStepOk_toolCalls_nodup (parse : String → Except String Unit)
    (lm : List Message → List RawDelta) (reg : Registry) (ctime : String → Nat)
    (early execT : Bool) (h : List Message) :
    (((runStepOk parse lm reg ctime early execT h).tool_calls).map ToolCallRec.id).Nodup :=
  stepFold_buffer_nodup parse reg ctime early execT (gen (lm h)).1 initStepState
    List.nodup_nil

/-- Against a well-formed futures table, the awaited results carry exactly the
ids of the calls, positionally in call order. -/
theorem awaitAll_ids (fs : List Future) (hwf : FuturesWF fs) :
    ∀ (tcs : List ToolCallRec) (rs : List ToolResult),
      awaitAll fs tcs = .ok rs →
      rs.map ToolResult.tool_call_id = tcs.map ToolCallRec.id := by
  intro tcs
  induction tcs with
  | nil =>
    intro rs h
    cases h
    rfl
  | cons tc tcs ih =>
    intro rs h
    unfold awaitAll at h
    cases hf : findFuture fs tc.id with
    | none => rw [hf] at h; cases h
    | some f =>
      rw [hf] at h
      cases hrec : awaitAll fs tcs with
      | error e => rw [hrec] at h; cases h
      | ok rs0 =>
        rw [hrec] at h
        cases h
        have hfid : f.id = tc.id := by
          have := List.find?_some hf
          simpa using this
        have hfmem : f ∈ fs := List.mem_of_find?_eq_some hf
        have hres : f.result.tool_call_id = tc.id := by
          rw [hwf f hfmem, hfid]
        simp only [List.map_cons, hres, ih rs0 hrec]

/-- The assistant message of a finished step has role "assistant". -/
theorem runStepOk_message_role (parse : String → Except String Unit)
    (lm : List Message → List RawDelta) (reg : Registry) (ctime : String → Nat)
    (early execT : Bool) (h : List Message) :
    (runStepOk parse lm reg ctime early execT h).message.role = "assistant" := rfl

/-- The assistant message of a finished step carries exactly the tool calls
the step reconstructed. -/
theorem runStepOk_message_tool_calls (parse : String → Except String Unit)
    (lm : List Message → List RawDelta) (reg : Registry) (ctime : String → Nat)
    (early execT : Bool) (h : List Message) :
    (runStepOk parse lm reg ctime early execT h).message.tool_calls =
      (runStepOk parse lm reg ctime early execT h).tool_calls := rfl

/-- Role and tool-call id of a message, the data the history invariant reads. -/
def MsgKey (m : Message) : String × Option String := (m.role, m.tool_call_id)

/-- Shape of the history suffix the agent loop appends: a sequence of rounds,
each an assistant message followed by one tool message per tool call of that
message, in call order, with pairwise distinct call ids. -/
inductive Blocks : List Message → Prop where
  | nil : Blocks []
  | block (m : Message) (ts rest : List Message)
      (hrole : m.role = "assistant")
      (hts : ts.map MsgKey = m.tool_calls.map (fun tc => ("tool", some tc.id)))
      (hnd : (m.tool_calls.map ToolCallRec.id).Nodup)
      (hrest : Blocks rest) : Blocks (m :: ts ++ rest)

/-- Tool messages of a round all have role "tool". -/
theorem block_ts_role (ts : List Message) (tcs : List ToolCallRec)
    (hts : ts.map MsgKey = tcs.map (fun tc => ("tool", some tc.id))) :
    ∀ t ∈ ts, t.role = "tool" := by
  intro t ht
  have h1 : MsgKey t ∈ ts.map MsgKey := List.mem_map_of_mem MsgKey ht
  rw [hts] at h1
  obtain ⟨tc, _, heq⟩ := List.mem_map.mp h1
  have h2 : (MsgKey t).1 = "tool" := by rw [← heq]
  exact h2

/-- A block list starts with an assistant message (or is empty), so the
not-yet-assistant prefix of a block list is empty. -/
theorem blocks_takeWhile_nil (l : List Message) (hb : Blocks l) :
    l.takeWhile (fun x => !(x.role == "assistant")) = [] := by
  cases hb with
  | nil => rfl
  | block m ts rest hrole hts hnd hrest =>
    show List.takeWhile _ (m :: (ts ++ rest)) = []
    rw [List.takeWhile_cons]
    simp [hrole]

/-- In a duplicate-free list, the element `a` is counted exactly once. -/
theorem countP_beq_eq_one_of_nodup {α : Type} [BEq α] [LawfulBEq α]
    (l : List α) (a : α) (hnd : l.Nodup) (ha : a ∈ l) :
    l.countP (fun x => x == a) = 1 := by
  induction l with
  | nil => cases ha
  | cons b l ih =>
    obtain ⟨hbl, hl⟩ := List.nodup_cons.mp hnd
    rw [List.countP_cons]
    rcases List.mem_cons.mp ha with h1 | h2
    · subst h1
      have hz : l.countP (fun x => x == a) = 0 := by
        rw [List.countP_eq_zero]
        intro x hx
        simp only [beq_iff_eq]
        intro hxa
        rw [hxa] at hx
        exact hbl hx
      simp [hz]
    · have hba : ((b == a) = true) → False := by
        intro hba
        rw [eq_of_beq hba] at hbl
        exact hbl h2
      rw [ih hl h2, if_neg hba]

/-- Inside a block list, every tool-call entry of an assistant message is
matched by exactly one tool message before the next assistant message. -/
theorem blocks_count (app : List Message) (hb : Blocks app) :
    ∀ (i : Nat) (m : Message) (tc : ToolCallRec), app[i]? = some m →
      m.role = "assistant" → tc ∈ m.tool_calls →
      ((app.drop (i + 1)).takeWhile (fun x => !(x.role == "assistant"))).countP
        (fun x => x.role == "tool" && x.tool_call_id == some tc.id) = 1 := by
  induction hb with
  | nil =>
    intro i m tc hi _ _
    rw [List.getElem?_nil] at hi
    cases hi
  | block m0 ts rest hrole hts hnd hrest ih =>
    intro i m tc hi hm htc
    cases i with
    | zero =>
      have hm0 : m0 = m := by simpa using hi
      subst hm0
      show (((ts ++ rest).takeWhile _).countP _) = 1
      rw [takeWhile_append_all _ ts rest (by
        intro t ht
        rw [block_ts_role ts m0.tool_calls hts t ht]
        rfl)]
      rw [blocks_takeWhile_nil rest hrest, List.append_nil]
      have h1 : ts.countP (fun x => x.role == "tool" && x.tool_call_id == some tc.id)
          = (ts.map MsgKey).countP
              (fun pr => pr.1 == "tool" && pr.2 == some tc.id) :=
        (List.countP_map
          (fun pr : String × Option String => pr.1 == "tool" && pr.2 == some tc.id)
          MsgKey ts).symm
      rw [h1, hts, List.countP_map]
      have h2 : List.countP
            ((fun pr : String × Option String => pr.1 == "tool" && pr.2 == some tc.id) ∘
              (fun tc' : ToolCallRec => ("tool", some tc'.id))) m0.tool_calls
          = List.countP (fun tc' : ToolCallRec => tc'.id == tc.id) m0.tool_calls := by
        apply List.countP_congr
        intro x _
        simp
      rw [h2]
      have h3 : List.countP (fun tc' : ToolCallRec => tc'.id == tc.id) m0.tool_calls
          = List.countP (fun x => x == tc.id) (m0.tool_calls.map ToolCallRec.id) :=
        (List.countP_map (fun x : String => x == tc.id) ToolCallRec.id
          m0.tool_calls).symm
      rw [h3]
      exact countP_beq_eq_one_of_nodup _ _ hnd (List.mem_map_of_mem ToolCallRec.id htc)
    | succ n =>
      have hi2 : (ts ++ rest)[n]? = some m := by simpa using hi
      by_cases hn : n < ts.length
      · exfalso
        rw [List.getElem?_append, if_pos hn] at hi2
        have hmem : m ∈ ts := by
          obtain ⟨hlt, heq⟩ := List.getElem?_eq_some.mp hi2
          rw [← heq]
          exact List.getElem_mem hlt
        have hrt : m.role = "tool" := block_ts_role ts m0.tool_calls hts m hmem
        rw [hrt] at hm
        exact absurd hm (by decide)
      · push_neg at hn
        rw [List.getElem?_append, if_neg (by omega)] at hi2
        show (((m0 :: (ts ++ rest)).drop (n + 1 + 1)).takeWhile _).countP _ = 1
        rw [List.drop_succ_cons]
        have hd : (ts ++ rest).drop (n + 1) = rest.drop ((n - ts.length) + 1) := by
          have heq : n + 1 = ts.length + ((n - ts.length) + 1) := by omega
          rw [heq, List.drop_append]
        rw [hd]
        exact ih (n - ts.length) m tc hi2 hm htc

/-- Every successful loop run only appends to the history, and what it appends
is a block list. -/
theorem agentGo_blocks (parse : String → Except String Unit)
    (lm : List Message → List RawDelta) (reg : Registry)
    (ctime : String → Nat) (early : Bool) :
    ∀ (fuel : Nat) (h : List Message) (iter tot : Nat) (r : AgentResult),
      agentGo parse lm reg ctime early fuel h iter tot = .ok r →
      ∃ app, r.history = h ++ app ∧ Blocks app := by
  intro fuel
  induction fuel with
  | zero =>
    intro h iter tot r heq
    obtain ⟨hh, _, _, _⟩ := finalizeAgent_ok_shape h iter tot r heq
    exact ⟨[], by rw [hh, List.append_nil], Blocks.nil⟩
  | succ fuel ih =>
    intro h iter tot r heq
    unfold agentGo at heq
    cases hs : runStep parse lm reg ctime early true h with
    | error e => rw [hs] at heq; cases heq
    | ok sr =>
      rw [hs] at heq
      simp only at heq
      have hsr : sr = runStepOk parse lm reg ctime early true h := by
        unfold runStep at hs
        cases hg : (gen (lm h)).2 with
        | some e => rw [hg] at hs; cases hs
        | none => rw [hg] at hs; cases hs; rfl
      subst hsr
      by_cases htc : (runStepOk parse lm reg ctime early true h).tool_calls = []
      · rw [if_pos htc] at heq
        obtain ⟨hh, _, _, _⟩ := finalizeAgent_ok_shape _ _ _ r heq
        refine ⟨[(runStepOk parse lm reg ctime early true h).message], by rw [hh], ?_⟩
        have hts0 : (([] : List Message)).map MsgKey =
            ((runStepOk parse lm reg ctime early true h).message.tool_calls).map
              (fun tc => (("tool" : String), some tc.id)) := by
          rw [runStepOk_message_tool_calls, htc]
          rfl
        have hnd0 : (((runStepOk parse lm reg ctime early true h).message.tool_calls).map
            ToolCallRec.id).Nodup := by
          rw [runStepOk_message_tool_calls, htc]
          exact List.nodup_nil
        exact Blocks.block _ [] []
          (runStepOk_message_role parse lm reg ctime early true h) hts0 hnd0 Blocks.nil
      · rw [if_neg htc] at heq
        cases hrs : (runStepOk parse lm reg ctime early true h).tool_results with
        | error e => rw [hrs] at heq; cases heq
        | ok rs =>
          rw [hrs] at heq
          obtain ⟨app', happ, hbl⟩ := ih _ _ _ _ heq
          refine ⟨(runStepOk parse lm reg ctime early true h).message ::
            (rs.map ToolResult.message ++ app'), ?_, ?_⟩
          · rw [happ]
            simp [List.append_assoc]
          · have hids : rs.map ToolResult.tool_call_id =
                ((runStepOk parse lm reg ctime early true h).tool_calls).map ToolCallRec.id :=
              awaitAll_ids _ (runStepOk_futuresWF parse lm reg ctime early h) _ rs hrs
            have hts1 : (rs.map ToolResult.message).map MsgKey =
                ((runStepOk parse lm reg ctime early true h).message.tool_calls).map
                  (fun tc => (("tool" : String), some tc.id)) := by
              rw [runStepOk_message_tool_calls]
              rw [List.map_map]
              have hcomp : (MsgKey ∘ ToolResult.message) =
                  (fun tr : ToolResult => (("tool" : String), some tr.tool_call_id)) := rfl
              rw [hcomp]
              have e1 : rs.map
                  (fun tr : ToolResult => (("tool" : String), some tr.tool_call_id)) =
                  (rs.map ToolResult.tool_call_id).map
                    (fun s => (("tool" : String), some s)) :=
                (List.map_map (fun s : String => (("tool" : String), some s))
                  ToolResult.tool_call_id rs).symm
              rw [e1, hids, List.map_map]
              rfl
            have hnd1 : (((runStepOk parse lm reg ctime early true h).message.tool_calls).map
                ToolCallRec.id).Nodup := by
              rw [runStepOk_message_tool_calls]
              exact runStepOk_toolCalls_nodup parse lm reg ctime early true h
            exact Blocks.block _ _ _
              (runStepOk_message_role parse lm reg ctime early true h) hts1 hnd1 hbl

/-- C8: for every successful agent run, the loop only appends to the history
(the input history is an unchanged prefix of the final history), and every
tool-call entry of every APPENDED assistant message is followed, before any
later assistant message, by exactly one tool message whose tool_call_id
matches it. -/
theorem history_append_only_and_toolcall_invariant
    (parse : String → Except String Unit) (lm : List Message → List RawDelta)
    (reg : Registry) (ctime : String → Nat) (h0 : List Message) (k : Nat)
    (early : Bool) (r : AgentResult)
    (hr : agent parse lm reg ctime h0 k early = .ok r) :
    ∃ app, r.history = h0 ++ app ∧
      ∀ (i : Nat) (m : Message) (tc : ToolCallRec), r.history[i]? = some m →
        h0.length ≤ i → m.role = "assistant" → tc ∈ m.tool_calls →
        ((r.history.drop (i + 1)).takeWhile (fun x => !(x.role == "assistant"))).countP
          (fun x => x.role == "tool" && x.tool_call_id == some tc.id) = 1 := by
  obtain ⟨app, happ, hbl⟩ := agentGo_blocks parse lm reg ctime early k h0 0 0 r hr
  refine ⟨app, happ, ?_⟩
  intro i m tc hi hlen hrole htc
  rw [happ] at hi
  rw [List.getElem?_append_right hlen] at hi
  rw [happ]
  have hdrop : (h0 ++ app).drop (i + 1) = app.drop ((i - h0.length) + 1) := by
    have heq : i + 1 = h0.length + ((i - h0.length) + 1) := by omega
    rw [heq, List.drop_append]
  rw [hdrop]
  exact blocks_count app hbl (i - h0.length) m tc hi hrole htc

/-- Witness for C8 at the concrete one-iteration run. -/
theorem history_append_only_and_toolcall_invariant_witness :
    agent parseEx lmEx regEx ctimeEx historyEx 1 true = .ok exResult ∧
    (∃ app, exResult.history = historyEx ++ app ∧
      ∀ (i : Nat) (m : Message) (tc : ToolCallRec), exResult.history[i]? = some m →
        historyEx.length ≤ i → m.role = "assistant" → tc ∈ m.tool_calls →
        ((exResult.history.drop (i + 1)).takeWhile
            (fun x => !(x.role == "assistant"))).countP
          (fun x => x.role == "tool" && x.tool_call_id == some tc.id) = 1) :=
  ⟨rfl, history_append_only_and_toolcall_invariant parseEx lmEx regEx ctimeEx
    historyEx 1 true exResult rfl⟩

end Claudable
